import Mathlib

/-!
Shallow embedding, in Lean, of the blog core of the repository
(`src/blog/BlogUtils.ts`, `src/blog/BlogCore.tsx`, `src/config/blog.config.ts`)
together with proofs about the behaviour that the specification describes.

Strings are modelled as `List Char`; the JavaScript string operations used by
the code (`trim`, `toLowerCase`, `includes`, `slice`, `split`, regex search
and replace) are embedded as executable functions on `List Char`.  Whitespace
and case mapping are modelled on the ASCII range, which is the range the
code's own regexes (`[#*_~`]`, `[A-Za-z0-9\s]`, …) operate on.
-/

set_option maxHeartbeats 1000000

/-- ASCII part of the JavaScript whitespace class `\s` (also the characters
removed by `String.prototype.trim`): space, tab, LF, VT, FF, CR. -/
def isJsWs (c : Char) : Bool :=
  decide (c.toNat = 32 ∨ c.toNat = 9 ∨ c.toNat = 10 ∨ c.toNat = 13 ∨
    c.toNat = 11 ∨ c.toNat = 12)

/-- JavaScript `String.prototype.toLowerCase`, one character at a time.  On the
ASCII range this is exactly core's `Char.toLower` (map `A`-`Z` to `a`-`z`). -/
def lowerStr (s : List Char) : List Char :=
  s.map Char.toLower

/-- JavaScript `String.prototype.trim`: drop whitespace from both ends. -/
def jsTrim (s : List Char) : List Char :=
  ((s.dropWhile isJsWs).reverse.dropWhile isJsWs).reverse

/-- Does `pat` occur at the very start of `s`?  (Literal-prefix matching used
to model regex scanning and `String.prototype.includes`.) -/
def startsList : List Char → List Char → Bool
  | [], _ => true
  | _ :: _, [] => false
  | p :: ps, c :: cs => p = c && startsList ps cs

/-- JavaScript `String.prototype.includes hay.includes(needle)`. -/
def jsIncludes : List Char → List Char → Bool
  | [], needle => startsList needle []
  | c :: t, needle => startsList needle (c :: t) || jsIncludes t needle

/-- JavaScript truthiness of a possibly-absent string (`undefined` and the
empty string are falsy). -/
def strTruthy : Option (List Char) → Bool
  | none => false
  | some s => !s.isEmpty

/-- A blog post as produced by `getAllPosts` (interface `BlogPost` of
`src/blog/BlogTypes.ts`; the fields the core logic uses). -/
structure BlogPost where
  title : List Char
  slug : List Char
  date : List Char
  content : List Char
  excerpt : Option (List Char)
  author : Option (List Char)
  featuredImage : Option (List Char)
deriving DecidableEq

/-- Search-filter predicate of `BlogList` (`src/blog/BlogCore.tsx`): the filter
callback, where `query` is the already-lowercased search query
(`const query = searchQuery.toLowerCase()`). -/
def matchesQuery (query : List Char) (post : BlogPost) : Bool :=
  jsIncludes (lowerStr post.title) query ||
  jsIncludes (lowerStr post.content) query ||
  (strTruthy post.excerpt && jsIncludes (lowerStr (post.excerpt.getD [])) query) ||
  (strTruthy post.author && jsIncludes (lowerStr (post.author.getD [])) query)

/-- The search-filter effect of `BlogList`: with a whitespace-only query the
post list is kept as is, otherwise posts are filtered by `matchesQuery`. -/
def filterPosts (posts : List BlogPost) (searchQuery : List Char) : List BlogPost :=
  if jsTrim searchQuery = [] then posts
  else posts.filter (fun post => matchesQuery (lowerStr searchQuery) post)

/-- The wording of the spec sentence behind claim C3, as a definition of its
own: a post is kept exactly when the lowercased query is a substring of the
lowercased title, content, excerpt (when present) or author (when present). -/
def specKept (q : List Char) (post : BlogPost) : Bool :=
  jsIncludes (lowerStr post.title) (lowerStr q) ||
  jsIncludes (lowerStr post.content) (lowerStr q) ||
  (match post.excerpt with
   | some e => jsIncludes (lowerStr e) (lowerStr q)
   | none => false) ||
  (match post.author with
   | some a => jsIncludes (lowerStr a) (lowerStr q)
   | none => false)

/-- blogConfig.posts.postsPerPage (`src/config/blog.config.ts`). -/
def postsPerPage : Nat := 30

/-- JavaScript `Array.prototype.slice` for nonnegative indices (out-of-range
indices are clamped to the array bounds). -/
def jsSlice (l : List BlogPost) (start stop : Nat) : List BlogPost :=
  (l.drop start).take (stop - start)

/-- Math.ceil (filteredPosts.length / postsPerPage), computed over `Nat`. -/
def totalPages (n : Nat) : Nat := (n + (postsPerPage - 1)) / postsPerPage

/-- The page slice of `BlogList`:
`filteredPosts.slice(startIndex, endIndex)` with
`startIndex = (currentPage - 1) * postsPerPage` and
`endIndex = startIndex + postsPerPage`. -/
def currentPosts (filteredPosts : List BlogPost) (currentPage : Nat) : List BlogPost :=
  jsSlice filteredPosts ((currentPage - 1) * postsPerPage)
    ((currentPage - 1) * postsPerPage + postsPerPage)

/-- First index at which `pat` occurs as a contiguous substring of `s` (the
position a regex engine finds for a literal search). -/
def firstIdxOfSub (pat : List Char) : List Char → Option Nat
  | [] => if startsList pat [] then some 0 else none
  | c :: t =>
    if startsList pat (c :: t) then some 0 else (firstIdxOfSub pat t).map (· + 1)

/-- JavaScript object property assignment on a string-keyed record: assigning
an existing key updates it in place, a new key is appended. -/
def jsSet : List (List Char × List Char) → List Char → List Char →
    List (List Char × List Char)
  | [], k, v => [(k, v)]
  | (k0, v0) :: rest, k, v =>
    if k0 = k then (k0, v) :: rest else (k0, v0) :: jsSet rest k v

/-- Record field lookup (`frontMatter.title` and friends: `undefined` when the
key is absent). -/
def fmGet (m : List (List Char × List Char)) (k : List Char) : Option (List Char) :=
  (m.find? (fun kv => kv.1 == k)).map (fun kv => kv.2)

/-- Closing front-matter delimiter of the regex
`/^---\n([\s\S]*?)\n---\n([\s\S]*)$/` (`extractFrontMatter`). -/
def fmDelim : List Char := "\n---\n".toList

/-- Opening front-matter delimiter of the same regex. -/
def fmOpen : List Char := "---\n".toList

/-- Parsing of the YAML-style `key: value` lines of a front-matter header
(`extractFrontMatter` in `src/blog/BlogUtils.ts`): each line of the header is
split on `:`; a line contributes nothing when its key part is empty or when it
has no `:` at all; otherwise the trimmed key is assigned the trimmed remaining
parts rejoined with `:`. -/
def parseFrontMatter (headerStr : List Char) : List (List Char × List Char) :=
  (headerStr.splitOn '\n').foldl
    (fun acc line =>
      match line.splitOn ':' with
      | [] => acc
      | key :: valueParts =>
        if key ≠ [] ∧ valueParts ≠ [] then
          jsSet acc (jsTrim key) (jsTrim (List.intercalate [':'] valueParts))
        else acc)
    []

/-- The front-matter split of `extractFrontMatter`: content matching
`/^---\n([\s\S]*?)\n---\n([\s\S]*)$/` (the lazy group ends at the first
occurrence of the closing delimiter) is split into the parsed header and the
body; any other content is returned unchanged with an empty record. -/
def extractFrontMatter (content : List Char) :
    List (List Char × List Char) × List Char :=
  if startsList fmOpen content then
    match firstIdxOfSub fmDelim (content.drop 4) with
    | some i =>
      (parseFrontMatter ((content.drop 4).take i), (content.drop 4).drop (i + 5))
    | none => ([], content)
  else ([], content)

/-- Concrete front-matter header used by the C6 witness. -/
def exHeader : List Char := "title: Hi".toList

/-- Concrete body used by the C6 witness. -/
def exBody : List Char := "Body text".toList

/-- Concrete content without front matter used by the C6 witness. -/
def exPlain : List Char := "no front matter here".toList

/-- Concrete post used for witnesses and counterexamples. -/
def exPostAB : BlogPost :=
  { title := "ab".toList
    slug := "ab".toList
    date := "2024-01-01".toList
    content := "cd".toList
    excerpt := none
    author := none
    featuredImage := none }

/-- Concrete whitespace-only query. -/
def qWs : List Char := " ".toList

/-- Concrete uppercase query. -/
def qAB : List Char := "AB".toList

/-- Concrete lowercase query. -/
def qab : List Char := "ab".toList

/-- Lazy scan of a `.*?` group up to the two-character closer `ab` (the
literal `](` of the image and link patterns): consumes characters until the
first occurrence of the closer, failing at a newline (the regex dot does not
match newlines) or at the end of input; returns the consumed group and the
remainder past the closer. -/
def scanStopPair (a b : Char) : List Char → Option (List Char × List Char)
  | [] => none
  | c :: t =>
    match t with
    | [] => none
    | d :: u =>
      if c = a ∧ d = b then some ([], u)
      else if c = '\n' then none
      else (scanStopPair a b t).map (fun r => (c :: r.1, r.2))

/-- Lazy scan up to a one-character closer class: consumes characters until
the first character satisfying `stop`; when `nlOk` is false the scan fails at
a newline (for `.`-based lazy groups), when true newlines are consumed (for
the `[^>]*` tag body). -/
def scanStopCl (stop : Char → Bool) (nlOk : Bool) :
    List Char → Option (List Char × List Char)
  | [] => none
  | c :: t =>
    if stop c then some ([], t)
    else if nlOk = false ∧ c = '\n' then none
    else (scanStopCl stop nlOk t).map (fun r => (c :: r.1, r.2))

/-- Match of `!\[.*?\]\((.*?)\)` at the head of the input: the captured URL
group and the remainder past the match. -/
def mdImageAt : List Char → Option (List Char × List Char)
  | '!' :: '[' :: rest =>
    match scanStopPair ']' '(' rest with
    | some (_, afterOpen) =>
      match scanStopCl (fun c => c = ')') false afterOpen with
      | some (url, rem) => some (url, rem)
      | none => none
    | none => none
  | _ => none

/-- Match of `\[.*?\]\(.*?\)` (the link pattern of `generateMetaDescription`)
at the head of the input: the remainder past the match. -/
def mdLinkAt : List Char → Option (List Char)
  | '[' :: rest =>
    match scanStopPair ']' '(' rest with
    | some (_, afterOpen) =>
      match scanStopCl (fun c => c = ')') false afterOpen with
      | some (_, rem) => some rem
      | none => none
    | none => none
  | _ => none

/-- Match of `<[^>]*>` at the head of the input: the remainder past the tag
(the negated class crosses newlines). -/
def htmlTagAt : List Char → Option (List Char)
  | '<' :: rest => (scanStopCl (fun c => c = '>') true rest).map (fun r => r.2)
  | _ => none

/-- Global leftmost regex replacement: scan left to right; where `step`
matches, emit its replacement text and continue past the match (the inserted
text is not rescanned), otherwise keep one character and move on.  The fuel
argument only serves structural termination and is always the input length
(every match consumes at least one character). -/
def replaceScan (step : List Char → Option (List Char × List Char)) :
    Nat → List Char → List Char
  | 0, s => s
  | _ + 1, [] => []
  | f + 1, c :: t =>
    match step (c :: t) with
    | some (repl, rem) => repl ++ replaceScan step f rem
    | none => c :: replaceScan step f t

/-- Literal text `$1` that the link replace of `generateMetaDescription`
inserts: its pattern has no capture group, so JavaScript treats the `$1` of
the replacement string as literal text, not as a backreference. -/
def dollarOne : List Char := "$1".toList

/-- Characters of the class `[#*_~\x60]` (hash, asterisk, underscore, tilde,
backquote) removed by `generateMetaDescription`. -/
def isMdFmt (c : Char) : Bool :=
  decide (c.toNat = 35 ∨ c.toNat = 42 ∨ c.toNat = 95 ∨ c.toNat = 126 ∨ c.toNat = 96)

/-- Replacement of every maximal run of characters satisfying `p` by the
single character `r` (the `\n+` and `\s+` replaces); the flag records whether
the previous character was inside a run. -/
def collapseRuns (p : Char → Bool) (r : Char) : Bool → List Char → List Char
  | _, [] => []
  | inRun, c :: t =>
    if p c then
      if inRun then collapseRuns p r true t
      else r :: collapseRuns p r true t
    else c :: collapseRuns p r false t

/-- JavaScript `String.prototype.lastIndexOf` for a single character
(`none` models the `-1` of a missing occurrence). -/
def lastIdxOf (a : Char) : List Char → Option Nat
  | [] => none
  | c :: t =>
    match lastIdxOf a t with
    | some i => some (i + 1)
    | none => if c = a then some 0 else none

/-- Trailing ellipsis appended by `generateMetaDescription`. -/
def dots3 : List Char := "...".toList

/-- generateMetaDescription (`src/config/blog.config.ts`): strips Markdown
images, applies the link replace (whose replacement string names a capture
group the pattern does not have, hence inserts literal `$1`), removes the
`[#*_~\x60]` characters and HTML tags, collapses newline runs and whitespace
runs to single spaces, trims, truncates to 160 characters and cuts at the
last space (the start of the string when there is none) before appending
`...`. -/
def generateMetaDescription (content : List Char) : List Char :=
  let step1 :=
    replaceScan (fun l => (mdImageAt l).map (fun r => ([], r.2))) content.length content
  let step2 :=
    replaceScan (fun l => (mdLinkAt l).map (fun rem => (dollarOne, rem))) step1.length step1
  let step3 := step2.filter (fun c => !isMdFmt c)
  let step4 :=
    replaceScan (fun l => (htmlTagAt l).map (fun rem => ([], rem))) step3.length step3
  let step5 := collapseRuns (fun c => c = '\n') ' ' false step4
  let step6 := collapseRuns isJsWs ' ' false step5
  let plainText := jsTrim step6
  let truncated := plainText.take 160
  (match lastIdxOf ' ' truncated with
   | some i => truncated.take i
   | none => []) ++ dots3

/-- Concrete Markdown content whose only markup is a link (claim C1). -/
def exC1Input : List Char :=
  "Read [the guide](https://example.com/guide) for details today".toList

/-- What the code produces for `exC1Input` (claim C1): the link is replaced
by the literal text `$1`, not by the link text. -/
def exC1Output : List Char := "Read $1 for details...".toList

/-- Case-insensitive literal match at the start of the input (the `i` flag of
the source regexes, ASCII case folding). -/
def startsListCI : List Char → List Char → Bool
  | [], _ => true
  | _ :: _, [] => false
  | p :: ps, c :: cs => Char.toLower p = Char.toLower c && startsListCI ps cs

/-- Image extensions of the bare-URL pattern, in the alternation's order. -/
def imageExts : List (List Char) :=
  ["jpg".toList, "jpeg".toList, "png".toList, "gif".toList, "webp".toList]

/-- Try the extension alternatives in order at the head of the input,
case-insensitively; the matched text as written, and the remainder. -/
def tryExts : List (List Char) → List Char → Option (List Char × List Char)
  | [], _ => none
  | e :: es, rest =>
    if startsListCI e rest then some (rest.take e.length, rest.drop e.length)
    else tryExts es rest

/-- Lazy scan of `.*?\.(jpg|jpeg|png|gif|webp)` after the protocol prefix:
consume characters (never a newline) until a dot followed by one of the
extensions; the consumed text including dot and extension, and the
remainder. -/
def scanDotExt : List Char → Option (List Char × List Char)
  | [] => none
  | c :: t =>
    if c = '.' then
      match tryExts imageExts t with
      | some (e, rem) => some ('.' :: e, rem)
      | none => (scanDotExt t).map (fun r => (c :: r.1, r.2))
    else if c = '\n' then none
    else (scanDotExt t).map (fun r => (c :: r.1, r.2))

/-- Protocol literal `https://`. -/
def httpsLit : List Char := "https://".toList

/-- Protocol literal `http://`. -/
def httpLit : List Char := "http://".toList

/-- Match of `(https?:\/\/.*?\.(jpg|jpeg|png|gif|webp))` (case-insensitive)
at the head of the input: the whole matched URL as written, and the
remainder. -/
def directImageAt (l : List Char) : Option (List Char × List Char) :=
  match (if startsListCI httpsLit l then some 8
         else if startsListCI httpLit l then some 7
         else none : Option Nat) with
  | some n =>
    match scanDotExt (l.drop n) with
    | some (mid, rem) => some (l.take n ++ mid, rem)
    | none => none
  | none => none

/-- Apostrophe character (the second quote alternative of the HTML image
pattern's quote class). -/
def squote : Char := Char.ofNat 39

/-- Literal `src=` of the HTML image pattern. -/
def srcEqLit : List Char := "src=".toList

/-- Scan of `.*?src=["']` after `<img`: the first `src=` immediately followed
by a quote, never crossing a newline; the remainder past the opening
quote. -/
def scanSrcQuote : List Char → Option (List Char)
  | [] => none
  | c :: t =>
    if c = '\n' then none
    else if startsList srcEqLit (c :: t) then
      match (c :: t).drop 4 with
      | q :: rest =>
        if q = '"' ∨ q = squote then some rest else scanSrcQuote t
      | [] => scanSrcQuote t
    else scanSrcQuote t

/-- Match of `<img.*?src=["'](.*?)["']` at the head of the input: the
captured URL group, and the remainder. -/
def htmlImageAt : List Char → Option (List Char × List Char)
  | '<' :: 'i' :: 'm' :: 'g' :: rest =>
    match scanSrcQuote rest with
    | some afterQ => scanStopCl (fun c => c = '"' ∨ c = squote) false afterQ
    | none => none
  | _ => none

/-- Leftmost match of a single pattern over the whole input: the first
position where `step` matches wins; returns the captured text. -/
def firstScan (step : List Char → Option (List Char × List Char)) :
    List Char → Option (List Char)
  | [] => none
  | c :: t =>
    match step (c :: t) with
    | some r => some r.1
    | none => firstScan step t

/-- extractFirstImage (`src/blog/BlogUtils.ts`): first the Markdown image
pattern, then the bare image URL pattern, then the HTML img tag pattern; each
is consulted only when the previous one produced no match or an empty (falsy)
capture, mirroring `if (match && match[1])`. -/
def extractFirstImage (content : List Char) : Option (List Char) :=
  if strTruthy (firstScan mdImageAt content) then firstScan mdImageAt content
  else if strTruthy (firstScan directImageAt content) then
    firstScan directImageAt content
  else if strTruthy (firstScan htmlImageAt content) then
    firstScan htmlImageAt content
  else none

/-- Character class `[^"&?\/\s]` of the video-id group. -/
def ytIdChar (c : Char) : Bool :=
  !(decide (c = '"') || decide (c = '&') || decide (c = '?') ||
    decide (c = '/') || isJsWs c)

/-- Exactly eleven characters of the id class at the head of the input. -/
def take11Id (l : List Char) : Option (List Char) :=
  if (l.take 11).length = 11 ∧ (l.take 11).all ytIdChar then some (l.take 11)
  else none

/-- First index of a character in the input. -/
def firstIdxOfChar (a : Char) : List Char → Option Nat
  | [] => none
  | c :: t => if c = a then some 0 else (firstIdxOfChar a t).map (· + 1)

/-- First index from the list at which `f` produces a value, tried in
order. -/
def firstSomeIdx (f : Nat → Option (List Char)) : List Nat → Option (List Char)
  | [] => none
  | j :: js =>
    match f j with
    | some v => some v
    | none => firstSomeIdx f js

/-- Branch `[^\/]+\/.+\/` of the YouTube URL pattern followed by the id
group: `[^\/]+` (which may cross newlines) forces the first slash; the greedy
dot of `.+` then backtracks from the last slash of that line towards earlier
ones until the id group matches. -/
def ytBranchA1 (rest : List Char) : Option (List Char) :=
  match firstIdxOfChar '/' rest with
  | none => none
  | some i =>
    if i = 0 then none
    else
      firstSomeIdx (fun j => take11Id ((rest.drop (i + 1)).drop (j + 1)))
        (((List.range ((rest.drop (i + 1)).takeWhile (fun c => c ≠ '\n')).length).filter
          (fun j => decide (1 ≤ j) &&
            (((rest.drop (i + 1)).takeWhile (fun c => c ≠ '\n')).getD j ' ' == '/'))).reverse)

/-- Literal `v/`. -/
def vSlashLit : List Char := "v/".toList

/-- Literal `embed/`. -/
def embedSlashLit : List Char := "embed/".toList

/-- Literal `e/`. -/
def eSlashLit : List Char := "e/".toList

/-- Branch `(?:v|e(?:mbed)?)\/` followed by the id group, alternatives in
backtracking order (`v/`, then greedy `embed/`, then `e/`). -/
def ytBranchA2 (rest : List Char) : Option (List Char) :=
  match (if startsListCI vSlashLit rest then take11Id (rest.drop 2) else none) with
  | some v => some v
  | none =>
    match (if startsListCI embedSlashLit rest then take11Id (rest.drop 6) else none) with
    | some v => some v
    | none =>
      if startsListCI eSlashLit rest then take11Id (rest.drop 2) else none

/-- Literal `v=`. -/
def vEqLit : List Char := "v=".toList

/-- Branch `.*[?&]v=` followed by the id group: the greedy dot backtracks
from the last `[?&]` of the line that is followed by `v=` towards earlier
ones. -/
def ytBranchA3 (rest : List Char) : Option (List Char) :=
  firstSomeIdx (fun k => take11Id (rest.drop (k + 3)))
    (((List.range (rest.takeWhile (fun c => c ≠ '\n')).length).filter
      (fun k => ((rest.takeWhile (fun c => c ≠ '\n')).getD k ' ' == '?' ||
          (rest.takeWhile (fun c => c ≠ '\n')).getD k ' ' == '&') &&
        startsListCI vEqLit (rest.drop (k + 1)))).reverse)

/-- Literal `youtube.com/`. -/
def ytComLit : List Char := "youtube.com/".toList

/-- Literal `youtu.be/`. -/
def ytBeLit : List Char := "youtu.be/".toList

/-- Match of the URL video-id pattern of `extractVideoId` at the head of the
input (case-insensitive), alternatives in the pattern's order: the captured
eleven-character id. -/
def ytUrlAt (l : List Char) : Option (List Char) :=
  if startsListCI ytComLit l then
    match ytBranchA1 (l.drop 12) with
    | some v => some v
    | none =>
      match ytBranchA2 (l.drop 12) with
      | some v => some v
      | none => ytBranchA3 (l.drop 12)
  else if startsListCI ytBeLit l then take11Id (l.drop 9)
  else none

/-- Leftmost match of the URL video-id pattern over the whole content. -/
def ytScan : List Char → Option (List Char)
  | [] => none
  | c :: t =>
    match ytUrlAt (c :: t) with
    | some v => some v
    | none => ytScan t

/-- Character class `[a-zA-Z0-9_-]` of the `youtube:` embed id. -/
def embedIdChar (c : Char) : Bool :=
  decide ((97 ≤ c.toNat ∧ c.toNat ≤ 122) ∨ (65 ≤ c.toNat ∧ c.toNat ≤ 90) ∨
    (48 ≤ c.toNat ∧ c.toNat ≤ 57) ∨ c.toNat = 95 ∨ c.toNat = 45)

/-- Literal `youtube:` of the embed pattern. -/
def ytEmbedLit : List Char := "youtube:".toList

/-- Match of `youtube:([a-zA-Z0-9_-]{11})` at the head of the input. -/
def ytEmbedAt (l : List Char) : Option (List Char) :=
  if startsList ytEmbedLit l then
    if ((l.drop 8).take 11).length = 11 ∧ ((l.drop 8).take 11).all embedIdChar then
      some ((l.drop 8).take 11)
    else none
  else none

/-- Leftmost match of the embed pattern. -/
def ytEmbedScan : List Char → Option (List Char)
  | [] => none
  | c :: t =>
    match ytEmbedAt (c :: t) with
    | some v => some v
    | none => ytEmbedScan t

/-- extractVideoId (`src/blog/BlogUtils.ts`): the URL pattern first; only
when it matches nowhere, the `youtube:` embed pattern. -/
def extractVideoId (content : List Char) : Option (List Char) :=
  match ytScan content with
  | some v => some v
  | none => ytEmbedScan content

/-- getYoutubeThumbnailUrl (`src/blog/BlogUtils.ts`). -/
def getYoutubeThumbnailUrl (videoId : List Char) : List Char :=
  "https://img.youtube.com/vi/".toList ++ videoId ++ "/maxresdefault.jpg".toList

/-- Match of `^#\s+(.+)$` (multiline flag) at a line start: a hash, at least
one whitespace character (whitespace here may include newlines), then the
greedy dot group up to the line end.  When the whitespace run reaches the end
of input the greedy `\s+` backtracks by one character so that `.+` can still
match: that requires at least two run characters and a final run character
that is not a newline, and captures just that final character. -/
def titleAt (l : List Char) : Option (List Char) :=
  match l with
  | '#' :: rest =>
    if (rest.takeWhile isJsWs).length = 0 then none
    else if rest.drop (rest.takeWhile isJsWs).length ≠ [] then
      some ((rest.drop (rest.takeWhile isJsWs).length).takeWhile (fun c => c ≠ '\n'))
    else
      match (rest.takeWhile isJsWs).getLast? with
      | some c =>
        if 2 ≤ (rest.takeWhile isJsWs).length ∧ c ≠ '\n' then some [c] else none
      | none => none
  | _ => none

/-- Remainder after the next newline (the next multiline `^` anchor). -/
def afterNextNl : List Char → Option (List Char)
  | [] => none
  | '\n' :: t => some t
  | _ :: t => afterNextNl t

/-- Scan the line starts in order for a title match; the fuel only serves
structural termination and is always the input length plus one. -/
def titleScan : Nat → List Char → Option (List Char)
  | 0, _ => none
  | f + 1, l =>
    match titleAt l with
    | some t => some t
    | none =>
      match afterNextNl l with
      | some rest => titleScan f rest
      | none => none

/-- extractTitleFromMarkdown (`src/blog/BlogUtils.ts`): the trimmed group of
the first `^#\s+(.+)$` match, `Untitled Post` when there is none. -/
def extractTitleFromMarkdown (content : List Char) : List Char :=
  match titleScan (content.length + 1) content with
  | some t => jsTrim t
  | none => "Untitled Post".toList

/-- ASCII word characters (the `\w` class). -/
def isWordChar (c : Char) : Bool :=
  decide ((65 ≤ c.toNat ∧ c.toNat ≤ 90) ∨ (97 ≤ c.toNat ∧ c.toNat ≤ 122) ∨
    (48 ≤ c.toNat ∧ c.toNat ≤ 57) ∨ c.toNat = 95)

/-- ASCII letters and digits (the `[A-Za-z0-9]` part of the strict filter). -/
def isAlnumAscii (c : Char) : Bool :=
  decide ((65 ≤ c.toNat ∧ c.toNat ≤ 90) ∨ (97 ≤ c.toNat ∧ c.toNat ≤ 122) ∨
    (48 ≤ c.toNat ∧ c.toNat ≤ 57))

/-- ASCII entries of the character map of the npm `slugify` package (the map
consulted before a character is kept as is); the full table additionally
transliterates non-ASCII currency signs, symbols and accented letters, none
of which are characters a produced slug can contain.
`String.prototype.normalize()` (NFC) is the identity on the ASCII strings
involved and is modelled as such. -/
def slugifyCharMap (c : Char) : Option (List Char) :=
  if c = '$' then some "dollar".toList
  else if c = '%' then some "percent".toList
  else if c = '&' then some "and".toList
  else if c = '<' then some "less".toList
  else if c = '>' then some "greater".toList
  else if c = '|' then some "or".toList
  else none

/-- Characters kept by slugify's per-character removal regex
`[^\w\s$*_+~.()'"!\-:@]+` (word characters, whitespace and the listed
punctuation). -/
def slugifyKeep (c : Char) : Bool :=
  isWordChar c || isJsWs c ||
  decide (c.toNat = 36 ∨ c.toNat = 42 ∨ c.toNat = 43 ∨ c.toNat = 126 ∨
    c.toNat = 46 ∨ c.toNat = 40 ∨ c.toNat = 41 ∨ c.toNat = 39 ∨ c.toNat = 34 ∨
    c.toNat = 33 ∨ c.toNat = 45 ∨ c.toNat = 58 ∨ c.toNat = 64)

/-- One reduce step of slugify: the mapped (or original) character, a result
equal to the replacement `-` turned into a space, filtered by the removal
regex. -/
def slugifyStep (c : Char) : List Char :=
  (if (match slugifyCharMap c with
       | some w => w
       | none => [c]) = ['-'] then [' ']
   else (match slugifyCharMap c with
         | some w => w
         | none => [c])).filter slugifyKeep

/-- slugify with the options `createSlug` passes (`lower`, `strict`, `trim`,
replacement `-`): per-character mapping and removal, then the strict filter
`[^A-Za-z0-9\s]`, trim, whitespace runs replaced by `-`, lowercase. -/
def slugify (text : List Char) : List Char :=
  (collapseRuns isJsWs '-' false
    (jsTrim (((text.map slugifyStep).flatten).filter
      (fun c => isAlnumAscii c || isJsWs c)))).map Char.toLower

/-- createSlug (`src/blog/BlogUtils.ts`): slugify with lower, strict, trim
and `-` replacement. -/
def createSlug (text : List Char) : List Char := slugify text

/-- Front-matter key `title`. -/
def kwTitle : List Char := "title".toList

/-- Front-matter key `slug`. -/
def kwSlug : List Char := "slug".toList

/-- Front-matter key `date`. -/
def kwDate : List Char := "date".toList

/-- Front-matter key `author`. -/
def kwAuthor : List Char := "author".toList

/-- Front-matter key `excerpt`. -/
def kwExcerpt : List Char := "excerpt".toList

/-- blogConfig.posts.defaultAuthor (= siteConfig.defaultAuthor,
`src/config/site.ts`). -/
def defaultAuthor : List Char := "NichePinner Team".toList

/-- JavaScript `a || b` on a possibly-absent string (absent and empty are
falsy). -/
def jsOrStr (o : Option (List Char)) (fallback : List Char) : List Char :=
  match o with
  | some v => if v.isEmpty then fallback else v
  | none => fallback

/-- The body of the map callback of getAllPosts, building one post from one
glob entry (path, raw content).  The filename derived from the path is dead
code in the source and not modelled; `processMarkdownContent` is the abstract
`process` parameter (its definition never affects the claims below);
`new Date().toISOString()` is the `now` parameter. -/
def buildPost (process : List Char → List Char) (now : List Char)
    (entry : List Char × List Char) : BlogPost :=
  { title := jsOrStr (fmGet (extractFrontMatter entry.2).1 kwTitle)
      (extractTitleFromMarkdown (process (extractFrontMatter entry.2).2))
    slug :=
      match fmGet (extractFrontMatter entry.2).1 kwSlug with
      | some s =>
        if s.isEmpty then
          createSlug (jsOrStr (fmGet (extractFrontMatter entry.2).1 kwTitle)
            (extractTitleFromMarkdown (process (extractFrontMatter entry.2).2)))
        else createSlug s
      | none =>
        createSlug (jsOrStr (fmGet (extractFrontMatter entry.2).1 kwTitle)
          (extractTitleFromMarkdown (process (extractFrontMatter entry.2).2)))
    date := jsOrStr (fmGet (extractFrontMatter entry.2).1 kwDate) now
    content := process (extractFrontMatter entry.2).2
    excerpt := some (jsOrStr (fmGet (extractFrontMatter entry.2).1 kwExcerpt)
      (generateMetaDescription (process (extractFrontMatter entry.2).2)))
    author := some (jsOrStr (fmGet (extractFrontMatter entry.2).1 kwAuthor)
      defaultAuthor)
    featuredImage :=
      match extractFirstImage (process (extractFrontMatter entry.2).2) with
      | some u => some u
      | none =>
        match extractVideoId (process (extractFrontMatter entry.2).2) with
        | some vid => some (getYoutubeThumbnailUrl vid)
        | none => none }

/-- Sort comparator of getAllPosts,
`(a, b) => new Date(b.date).getTime() - new Date(a.date).getTime()`, as the
order it sorts by; the abstract `ts` models `Date` parsing of a date string
to a timestamp. -/
def dateLe (ts : List Char → Int) (a b : BlogPost) : Bool :=
  ts b.date ≤ ts a.date

/-- The body of getAllPosts's `try` block: build a post from every glob entry
and sort by date, newest first (a stable sort consistent with the
comparator); every operation involved is total, so the body always produces a
value. -/
def getAllPostsBody (process : List Char → List Char) (ts : List Char → Int)
    (now : List Char) (entries : List (List Char × List Char)) :
    Except (List Char) (List BlogPost) :=
  Except.ok ((entries.map (buildPost process now)).mergeSort (dateLe ts))

/-- The `catch` of getAllPosts: an error resolves to the empty list. -/
def getAllPostsTry (r : Except (List Char) (List BlogPost)) : List BlogPost :=
  match r with
  | Except.ok posts => posts
  | Except.error _ => []

/-- getAllPosts (`src/blog/BlogUtils.ts`), over the glob entries. -/
def getAllPosts (process : List Char → List Char) (ts : List Char → Int)
    (now : List Char) (entries : List (List Char × List Char)) : List BlogPost :=
  getAllPostsTry (getAllPostsBody process ts now entries)

/-- getPostBySlug (`src/blog/BlogUtils.ts`): `find` on the post list, `null`
(here `none`) when no post carries the slug. -/
def getPostBySlug (process : List Char → List Char) (ts : List Char → Int)
    (now : List Char) (entries : List (List Char × List Char))
    (slug : List Char) : Option BlogPost :=
  (getAllPosts process ts now entries).find? (fun post => post.slug == slug)

/-- Error message of the BlogPost view. -/
def notFoundMsg : List Char := "Post not found".toList

/-- State of the BlogPost view after its effect ran (loaded post, error
message): a missing slug parameter or a failed lookup sets the error
(`src/blog/BlogCore.tsx`). -/
def blogPostViewState (process : List Char → List Char) (ts : List Char → Int)
    (now : List Char) (entries : List (List Char × List Char))
    (slugParam : Option (List Char)) : Option BlogPost × Option (List Char) :=
  match slugParam with
  | none => (none, some notFoundMsg)
  | some s =>
    match getPostBySlug process ts now entries s with
    | some p => (some p, none)
    | none => (none, some notFoundMsg)

/-- The BlogPost view renders its `Post Not Found` branch exactly when
`error || !post`. -/
def postNotFoundShown (st : Option BlogPost × Option (List Char)) : Bool :=
  st.2.isSome || st.1.isNone

/-- Error state of BlogList's fetch effect: only a rejection of getAllPosts
sets the `Unable to load blog posts` message. -/
def blogListErrorState (r : Except (List Char) (List BlogPost)) :
    Option (List Char) :=
  match r with
  | Except.ok _ => none
  | Except.error _ => some "Unable to load blog posts".toList

/-- Wording of claim C7, as a definition of its own: the image occurring
earliest in the content, whichever of the three forms it takes. -/
def specFirstImageEarliest (content : List Char) : Option (List Char) :=
  firstScan
    (fun l =>
      match mdImageAt l with
      | some r => some r
      | none =>
        match directImageAt l with
        | some r => some r
        | none => htmlImageAt l)
    content

/-- Concrete content with an HTML image before a Markdown image (claim C7). -/
def exC7 : List Char :=
  "<img src=\"http://a.example/x.bmp\"> then ![y](http://b.example/y.bmp)".toList

/-- URL of the Markdown image of `exC7`. -/
def exC7mdUrl : List Char := "http://b.example/y.bmp".toList

/-- URL of the HTML image of `exC7`. -/
def exC7htmlUrl : List Char := "http://a.example/x.bmp".toList

/-- Concrete timestamp function for witnesses. -/
def tsZero : List Char → Int := fun _ => 0

/-- Concrete default date for witnesses. -/
def exNow : List Char := "2024-01-01T00:00:00.000Z".toList

/-- Concrete glob entry for witnesses. -/
def exEntry : List Char × List Char :=
  ("/blog-content/a.md".toList, "# T\n\nhello".toList)

/-- The post built from `exEntry` with the identity `process`. -/
def exPostBuilt : BlogPost := buildPost (fun s => s) exNow exEntry

/-- Nonempty words joined by single separator characters: the shape of every
slugify result (alphanumeric groups joined by single hyphens, used to state
the slug normal form). -/
def glueSep (sep : Char) : List (List Char) → List Char
  | [] => []
  | w :: rest =>
    match rest with
    | [] => w
    | _ :: _ => w ++ sep :: glueSep sep rest

/-- Lowercase ASCII letters and digits: the characters a slug's words consist
of. -/
def isLowerAlnum (c : Char) : Bool :=
  decide ((97 ≤ c.toNat ∧ c.toNat ≤ 122) ∨ (48 ≤ c.toNat ∧ c.toNat ≤ 57))

/-! ## Theorems -/

theorem charToNat_ofNat (n : Nat) (h1 : n < 0xd800) : (Char.ofNat n).toNat = n := by
  have hv : Nat.isValidChar n := Or.inl h1
  rw [Char.ofNat, dif_pos hv]
  rfl

theorem toLower_def (c : Char) :
    Char.toLower c = if 65 ≤ c.toNat ∧ c.toNat ≤ 90 then Char.ofNat (c.toNat + 32) else c :=
  rfl

theorem toNat_toLower (c : Char) :
    (Char.toLower c).toNat = if 65 ≤ c.toNat ∧ c.toNat ≤ 90 then c.toNat + 32 else c.toNat := by
  rw [toLower_def]
  split
  · rename_i h
    rw [charToNat_ofNat _ (by omega)]
  · rfl

theorem isJsWs_toLower (c : Char) : isJsWs (Char.toLower c) = isJsWs c := by
  unfold isJsWs
  rw [decide_eq_decide]
  have h := toNat_toLower c
  by_cases hc : 65 ≤ c.toNat ∧ c.toNat ≤ 90
  · rw [if_pos hc] at h
    omega
  · rw [if_neg hc] at h
    omega

theorem allWs_lower (s : List Char) : (lowerStr s).all isJsWs = s.all isJsWs := by
  induction s with
  | nil => rfl
  | cons c t ih =>
    simp only [lowerStr, List.map_cons, List.all_cons, isJsWs_toLower]
    rw [show (List.map Char.toLower t).all isJsWs = t.all isJsWs from ih]

theorem jsTrim_eq_nil_iff (s : List Char) : jsTrim s = [] ↔ s.all isJsWs = true := by
  unfold jsTrim
  constructor
  · intro h
    have h2 : (s.dropWhile isJsWs).reverse.dropWhile isJsWs = [] := by
      have := congrArg List.reverse h
      simpa using this
    have h3 : ∀ c ∈ s.dropWhile isJsWs, isJsWs c := by
      intro c hc
      exact (List.dropWhile_eq_nil_iff.mp h2) c (List.mem_reverse.mpr hc)
    rw [List.all_eq_true]
    intro c hc
    have hsplit : c ∈ s.takeWhile isJsWs ++ s.dropWhile isJsWs := by
      rw [List.takeWhile_append_dropWhile]
      exact hc
    rcases List.mem_append.mp hsplit with h4 | h4
    · exact List.mem_takeWhile_imp h4
    · exact h3 c h4
  · intro h
    have h2 : s.dropWhile isJsWs = [] := by
      rw [List.dropWhile_eq_nil_iff]
      intro c hc
      exact (List.all_eq_true.mp h) c hc
    rw [h2]
    rfl

theorem filterPosts_ws (posts : List BlogPost) (q : List Char) (h : jsTrim q = []) :
    filterPosts posts q = posts := by
  simp [filterPosts, h]

theorem matchesQuery_eq_specKept (q : List Char) (hq : q ≠ []) (p : BlogPost) :
    matchesQuery (lowerStr q) p = specKept q p := by
  have hlq : lowerStr q ≠ [] := by
    cases q with
    | nil => exact absurd rfl hq
    | cons c t => simp [lowerStr]
  unfold matchesQuery specKept
  congr 1
  congr 1
  · cases hE : p.excerpt with
    | none => rfl
    | some e =>
      cases e with
      | nil =>
        simp only [hE, strTruthy, List.isEmpty_nil, Bool.not_true, Bool.false_and]
        have : jsIncludes (lowerStr []) (lowerStr q) = false := by
          cases h2 : lowerStr q with
          | nil => exact absurd h2 hlq
          | cons c t => simp [lowerStr, jsIncludes, startsList]
        rw [this]
      | cons c t =>
        simp only [hE, strTruthy, List.isEmpty_cons, Bool.not_false, Bool.true_and,
          Option.getD_some]
  · cases hA : p.author with
    | none => rfl
    | some a =>
      cases a with
      | nil =>
        simp only [hA, strTruthy, List.isEmpty_nil, Bool.not_true, Bool.false_and]
        have : jsIncludes (lowerStr []) (lowerStr q) = false := by
          cases h2 : lowerStr q with
          | nil => exact absurd h2 hlq
          | cons c t => simp [lowerStr, jsIncludes, startsList]
        rw [this]
      | cons c t =>
        simp only [hA, strTruthy, List.isEmpty_cons, Bool.not_false, Bool.true_and,
          Option.getD_some]

/-- Claim C4: filtering with an empty (or whitespace-only, via trim) search
query returns the full post list unchanged and in order. -/
theorem c4_empty_query_returns_all (posts : List BlogPost) (q : List Char)
    (h : jsTrim q = []) : filterPosts posts q = posts :=
  filterPosts_ws posts q h

/-- Witness for C4 at a concrete post list and the empty query. -/
theorem c4_empty_query_returns_all_witness :
    filterPosts [exPostAB] [] = [exPostAB] :=
  c4_empty_query_returns_all [exPostAB] [] (by decide)

/-- Counterexample to claim C3 as stated: with the whitespace query `" "` the
post is kept (the trim branch keeps every post) although the lowercased query
is not a substring of any of its lowercased fields. -/
theorem c3_cex_ws_query :
    ¬ (exPostAB ∈ filterPosts [exPostAB] qWs ↔ specKept qWs exPostAB = true) := by
  decide

/-- Claim C3 as amended: filtering is case-insensitive for every query (any
two queries with the same lowercasing filter identically), and whenever the
trimmed query is nonempty a post is kept exactly when the lowercased query is
a substring of the lowercased title, content, excerpt (when present) or
author (when present); whitespace-only queries keep all posts instead. -/
theorem c3_case_insensitive_filter (posts : List BlogPost) (q q' : List Char)
    (hvar : lowerStr q = lowerStr q') :
    filterPosts posts q = filterPosts posts q' ∧
    (jsTrim q ≠ [] → filterPosts posts q = posts.filter (fun p => specKept q p)) := by
  have hws : (jsTrim q = []) ↔ (jsTrim q' = []) := by
    rw [jsTrim_eq_nil_iff, jsTrim_eq_nil_iff, ← allWs_lower q, ← allWs_lower q', hvar]
  constructor
  · by_cases h : jsTrim q = []
    · rw [filterPosts_ws posts q h, filterPosts_ws posts q' (hws.mp h)]
    · unfold filterPosts
      rw [if_neg h, if_neg (fun h2 => h (hws.mpr h2)), hvar]
  · intro h
    have hq : q ≠ [] := by
      intro h2
      exact h (by rw [h2]; rfl)
    unfold filterPosts
    rw [if_neg h]
    exact List.filter_congr (fun p _ => matchesQuery_eq_specKept q hq p)

/-- Witness for C3 (amended) at concrete posts and queries. -/
theorem c3_case_insensitive_filter_witness :
    filterPosts [exPostAB] qAB = filterPosts [exPostAB] qab ∧
    (jsTrim qAB ≠ [] → filterPosts [exPostAB] qAB = [exPostAB].filter (fun p => specKept qAB p)) :=
  c3_case_insensitive_filter [exPostAB] qAB qab (by decide)

theorem currentPosts_eq (posts : List BlogPost) (p : Nat) :
    currentPosts posts p = (posts.drop ((p - 1) * postsPerPage)).take postsPerPage := by
  unfold currentPosts jsSlice
  congr 1
  omega

theorem chunksJoin (l : List BlogPost) :
    ((List.range (totalPages l.length)).map
      (fun k => (l.drop (k * postsPerPage)).take postsPerPage)).flatten = l := by
  by_cases h : l = []
  · subst h
    rfl
  · have hlen : 0 < l.length := List.length_pos.mpr h
    have hTP : totalPages l.length = totalPages (l.drop postsPerPage).length + 1 := by
      simp only [totalPages, postsPerPage, List.length_drop]
      omega
    rw [hTP, List.range_succ_eq_map, List.map_cons, List.flatten_cons, List.map_map]
    have hcomp :
        ((fun k => (l.drop (k * postsPerPage)).take postsPerPage) ∘ Nat.succ) =
        (fun k => ((l.drop postsPerPage).drop (k * postsPerPage)).take postsPerPage) := by
      funext k
      simp only [Function.comp_apply, List.drop_drop]
      have harith : Nat.succ k * postsPerPage = postsPerPage + k * postsPerPage := by
        simp only [postsPerPage]
        omega
      rw [harith]
    rw [hcomp, chunksJoin (l.drop postsPerPage)]
    simp only [Nat.zero_mul, List.drop_zero]
    exact List.take_append_drop postsPerPage l
termination_by l.length
decreasing_by
  simp only [List.length_drop, postsPerPage]
  omega

theorem currentPosts_get (posts : List BlogPost) (p i : Nat)
    (hi : i < (currentPosts posts p).length) :
    ∃ hj : (p - 1) * postsPerPage + i < posts.length,
      (currentPosts posts p).get ⟨i, hi⟩ =
        posts.get ⟨(p - 1) * postsPerPage + i, hj⟩ := by
  unfold currentPosts jsSlice at hi ⊢
  have hlen : (p - 1) * postsPerPage + i < posts.length := by
    have hi2 := hi
    rw [List.length_take, List.length_drop] at hi2
    omega
  refine ⟨hlen, ?_⟩
  simp only [List.get_eq_getElem, List.getElem_take, List.getElem_drop]

/-- Claim C2: for every filtered post list and page number `p ≥ 1`, the page
slice `posts.slice((p-1)*postsPerPage, (p-1)*postsPerPage + postsPerPage)` has
at most `postsPerPage` elements, each of its elements comes from the filtered
list at the corresponding in-range index, and the slices of pages
`1 .. ceil(length/postsPerPage)` concatenate back to the filtered list. -/
theorem c2_pagination_bounds (posts : List BlogPost) (p : Nat) (hp : 1 ≤ p) :
    (currentPosts posts p).length ≤ postsPerPage ∧
    (∀ i (hi : i < (currentPosts posts p).length),
      ∃ hj : (p - 1) * postsPerPage + i < posts.length,
        (currentPosts posts p).get ⟨i, hi⟩ =
          posts.get ⟨(p - 1) * postsPerPage + i, hj⟩) ∧
    ((List.range (totalPages posts.length)).map
      (fun k => currentPosts posts (k + 1))).flatten = posts := by
  refine ⟨?_, ?_, ?_⟩
  · rw [currentPosts_eq]
    exact List.length_take_le postsPerPage (posts.drop ((p - 1) * postsPerPage))
  · intro i hi
    exact currentPosts_get posts p i hi
  · have hfun : ∀ k, currentPosts posts (k + 1) =
        (posts.drop (k * postsPerPage)).take postsPerPage := by
      intro k
      rw [currentPosts_eq]
      have harith : k + 1 - 1 = k := by omega
      rw [harith]
    rw [List.map_congr_left (fun k _ => hfun k)]
    exact chunksJoin posts

/-- Witness for C2 at a concrete post list and page 1. -/
theorem c2_pagination_bounds_witness :
    (currentPosts [exPostAB] 1).length ≤ postsPerPage ∧
    (∀ i (hi : i < (currentPosts [exPostAB] 1).length),
      ∃ hj : (1 - 1) * postsPerPage + i < [exPostAB].length,
        (currentPosts [exPostAB] 1).get ⟨i, hi⟩ =
          [exPostAB].get ⟨(1 - 1) * postsPerPage + i, hj⟩) ∧
    ((List.range (totalPages [exPostAB].length)).map
      (fun k => currentPosts [exPostAB] (k + 1))).flatten = [exPostAB] :=
  c2_pagination_bounds [exPostAB] 1 (by decide)

theorem startsList_iff (p s : List Char) : startsList p s = true ↔ ∃ t, s = p ++ t := by
  induction p generalizing s with
  | nil =>
    simp only [startsList, true_iff, List.nil_append]
    exact ⟨s, rfl⟩
  | cons a ps ih =>
    cases s with
    | nil =>
      simp [startsList]
    | cons c cs =>
      simp only [startsList, Bool.and_eq_true, decide_eq_true_eq, ih, List.cons_append]
      constructor
      · rintro ⟨rfl, t, rfl⟩
        exact ⟨t, rfl⟩
      · rintro ⟨t, heq⟩
        injection heq with h1 h2
        exact ⟨h1.symm, t, h2⟩

theorem firstIdxOfSub_some (pat : List Char) (s : List Char) :
    ∀ (i : Nat), firstIdxOfSub pat s = some i →
      ∃ pre post, s = pre ++ (pat ++ post) ∧ pre.length = i := by
  induction s with
  | nil =>
    intro i h
    unfold firstIdxOfSub at h
    split at h
    · rename_i hst
      obtain ⟨t, ht⟩ := (startsList_iff pat []).mp hst
      cases h
      exact ⟨[], t, ht, rfl⟩
    · cases h
  | cons c t ih =>
    intro i h
    unfold firstIdxOfSub at h
    split at h
    · rename_i hst
      obtain ⟨u, hu⟩ := (startsList_iff pat (c :: t)).mp hst
      cases h
      exact ⟨[], u, hu, rfl⟩
    · rename_i hst
      rcases hmap : firstIdxOfSub pat t with _ | j
      · rw [hmap] at h
        cases h
      · rw [hmap] at h
        simp only [Option.map_some', Option.some.injEq] at h
        obtain ⟨pre, post, heq, hlen⟩ := ih j hmap
        refine ⟨c :: pre, post, by rw [heq]; rfl, ?_⟩
        simp only [List.length_cons, hlen]
        omega

theorem exPlainNoFM : ¬ ∃ h b, exPlain = fmOpen ++ (h ++ (fmDelim ++ b)) := by
  rintro ⟨h, b, heq⟩
  have hst : startsList fmOpen exPlain = true :=
    (startsList_iff _ _).mpr ⟨h ++ (fmDelim ++ b), heq⟩
  exact absurd hst (by decide)

/-- Claim C6: content of the delimiter form `---\n<header>\n---\n<body>` (the
lazy group of the pattern ends at the first occurrence of the closing
delimiter, which the first hypothesis pins down) is split into the body and
the map built from the `key: value` lines of the header; content not matching
the pattern is returned unchanged with an empty front-matter map. -/
theorem c6_extract_front_matter (header body content : List Char)
    (hfirst : firstIdxOfSub fmDelim (header ++ (fmDelim ++ body)) = some header.length)
    (hplain : ¬ ∃ h b, content = fmOpen ++ (h ++ (fmDelim ++ b))) :
    extractFrontMatter (fmOpen ++ (header ++ (fmDelim ++ body))) =
      (parseFrontMatter header, body) ∧
    extractFrontMatter content = ([], content) := by
  constructor
  · have hstart : startsList fmOpen (fmOpen ++ (header ++ (fmDelim ++ body))) = true :=
      (startsList_iff _ _).mpr ⟨header ++ (fmDelim ++ body), rfl⟩
    have h4 : fmOpen.length = 4 := rfl
    have hdrop : (fmOpen ++ (header ++ (fmDelim ++ body))).drop 4 =
        header ++ (fmDelim ++ body) := by
      rw [← h4]
      exact List.drop_left _ _
    unfold extractFrontMatter
    rw [if_pos hstart, hdrop, hfirst]
    have htake : (header ++ (fmDelim ++ body)).take header.length = header :=
      List.take_left _ _
    have h5 : header.length + 5 = (header ++ fmDelim).length := by
      have hd5 : fmDelim.length = 5 := rfl
      simp [List.length_append, hd5]
    have hdrop2 : (header ++ (fmDelim ++ body)).drop (header.length + 5) = body := by
      rw [h5, ← List.append_assoc]
      exact List.drop_left _ _
    show (parseFrontMatter ((header ++ (fmDelim ++ body)).take header.length),
      (header ++ (fmDelim ++ body)).drop (header.length + 5)) =
      (parseFrontMatter header, body)
    rw [htake, hdrop2]
  · by_cases hs : startsList fmOpen content = true
    · obtain ⟨t, rfl⟩ := (startsList_iff _ _).mp hs
      have h4 : fmOpen.length = 4 := rfl
      have hdrop : (fmOpen ++ t).drop 4 = t := by
        rw [← h4]
        exact List.drop_left _ _
      unfold extractFrontMatter
      rw [if_pos hs, hdrop]
      cases hidx : firstIdxOfSub fmDelim t with
      | none =>
        rfl
      | some i =>
        obtain ⟨pre, post, heq, _⟩ := firstIdxOfSub_some fmDelim t i hidx
        exact absurd ⟨pre, post, by rw [heq]⟩ hplain
    · unfold extractFrontMatter
      rw [if_neg hs]

/-- Witness for C6 at a concrete header, body and plain content. -/
theorem c6_extract_front_matter_witness :
    extractFrontMatter (fmOpen ++ (exHeader ++ (fmDelim ++ exBody))) =
      (parseFrontMatter exHeader, exBody) ∧
    extractFrontMatter exPlain = ([], exPlain) :=
  c6_extract_front_matter exHeader exBody exPlain (by decide) exPlainNoFM

/-- Claim C1 (evaluation at the failing input): on content whose only markup
is a Markdown link, `generateMetaDescription` keeps the literal text `$1` in
place of the link.  The replacement string of the link replace names capture
group 1, but its pattern has no capture group, so JavaScript inserts `$1`
literally instead of the link text the code's comment (and the spec)
describe. -/
theorem c1_meta_description_literal_dollar_one :
    generateMetaDescription exC1Input = exC1Output := by
  decide

theorem strTruthy_some (o : Option (List Char)) (h : strTruthy o = true) :
    ∃ v, o = some v := by
  cases o with
  | none => cases h
  | some v => exact ⟨v, rfl⟩

/-- Counterexample to claim C7 as stated: on content whose HTML image occurs
before its Markdown image, `extractFirstImage` returns the Markdown image URL
(pattern priority), not the image occurring earliest in the content. -/
theorem c7_cex_kind_priority_beats_position :
    extractFirstImage exC7 = some exC7mdUrl ∧
    specFirstImageEarliest exC7 = some exC7htmlUrl ∧
    exC7mdUrl ≠ exC7htmlUrl := by
  decide

/-- Claim C7 as amended: for every post built by getAllPosts, featuredImage
follows the pattern priority of the code rather than the textual position:
the first Markdown image URL when that pattern matches with a nonempty URL,
otherwise the first bare image URL, otherwise the first HTML img src,
otherwise the YouTube thumbnail of a video id extracted from the content, and
none when none of these exist. -/
theorem c7_featured_image_priority (process : List Char → List Char)
    (ts : List Char → Int) (now : List Char)
    (entries : List (List Char × List Char)) (p : BlogPost)
    (hp : p ∈ getAllPosts process ts now entries) :
    p.featuredImage =
      (if strTruthy (firstScan mdImageAt p.content) then
        firstScan mdImageAt p.content
      else if strTruthy (firstScan directImageAt p.content) then
        firstScan directImageAt p.content
      else if strTruthy (firstScan htmlImageAt p.content) then
        firstScan htmlImageAt p.content
      else
        match extractVideoId p.content with
        | some vid => some (getYoutubeThumbnailUrl vid)
        | none => none) := by
  have hmem : p ∈ entries.map (buildPost process now) := by
    have hperm := List.mergeSort_perm (entries.map (buildPost process now)) (dateLe ts)
    unfold getAllPosts getAllPostsBody getAllPostsTry at hp
    exact hperm.mem_iff.mp hp
  obtain ⟨e, _, rfl⟩ := List.mem_map.mp hmem
  simp only [buildPost]
  unfold extractFirstImage
  split_ifs with h1 h2 h3
  · obtain ⟨v, hv⟩ := strTruthy_some _ h1
    rw [hv]
  · obtain ⟨v, hv⟩ := strTruthy_some _ h2
    rw [hv]
  · obtain ⟨v, hv⟩ := strTruthy_some _ h3
    rw [hv]
  · rfl

/-- Witness for C7 (amended) at a concrete glob entry. -/
theorem c7_featured_image_priority_witness :
    exPostBuilt.featuredImage =
      (if strTruthy (firstScan mdImageAt exPostBuilt.content) then
        firstScan mdImageAt exPostBuilt.content
      else if strTruthy (firstScan directImageAt exPostBuilt.content) then
        firstScan directImageAt exPostBuilt.content
      else if strTruthy (firstScan htmlImageAt exPostBuilt.content) then
        firstScan htmlImageAt exPostBuilt.content
      else
        match extractVideoId exPostBuilt.content with
        | some vid => some (getYoutubeThumbnailUrl vid)
        | none => none) :=
  c7_featured_image_priority (fun s => s) tsZero exNow [exEntry] exPostBuilt
    (by
      have hperm := List.mergeSort_perm ([exEntry].map (buildPost (fun s => s) exNow))
        (dateLe tsZero)
      refine hperm.mem_iff.mpr ?_
      simp [exPostBuilt])

theorem find?_first {α : Type} (p : α → Bool) :
    ∀ (l : List α) (a : α), l.find? p = some a →
      ∃ i, ∃ hi : i < l.length, l.get ⟨i, hi⟩ = a ∧
        ∀ j (hj : j < l.length), j < i → p (l.get ⟨j, hj⟩) = false := by
  intro l
  induction l with
  | nil =>
    intro a h
    cases h
  | cons c t ih =>
    intro a h
    by_cases hc : p c = true
    · rw [List.find?_cons_of_pos _ hc] at h
      cases h
      exact ⟨0, by simp, rfl, fun j hj hj0 => absurd hj0 (by omega)⟩
    · rw [List.find?_cons_of_neg _ hc] at h
      obtain ⟨i, hi, hget, hbefore⟩ := ih a h
      refine ⟨i + 1, by simpa using Nat.succ_lt_succ hi, by simpa using hget, ?_⟩
      intro j hj hji
      cases j with
      | zero => simpa using hc
      | succ j' =>
        have hj' : j' < t.length := by simpa using Nat.lt_of_succ_lt_succ hj
        have := hbefore j' hj' (Nat.lt_of_succ_lt_succ hji)
        simpa using this

/-- Claim C8: getPostBySlug returns the first post carrying the requested
slug when one exists and `none` when no post does; the BlogPost view shows
its `Post not found` branch exactly when the slug parameter is missing or the
lookup comes back empty. -/
theorem c8_get_post_by_slug (process : List Char → List Char)
    (ts : List Char → Int) (now : List Char)
    (entries : List (List Char × List Char)) (slug : List Char)
    (slugParam : Option (List Char)) :
    ((∃ q ∈ getAllPosts process ts now entries, q.slug = slug) →
      ∃ p, getPostBySlug process ts now entries slug = some p ∧ p.slug = slug ∧
        ∃ i, ∃ hi : i < (getAllPosts process ts now entries).length,
          (getAllPosts process ts now entries).get ⟨i, hi⟩ = p ∧
          ∀ j (hj : j < (getAllPosts process ts now entries).length), j < i →
            ((getAllPosts process ts now entries).get ⟨j, hj⟩).slug ≠ slug) ∧
    ((∀ q ∈ getAllPosts process ts now entries, q.slug ≠ slug) →
      getPostBySlug process ts now entries slug = none) ∧
    (postNotFoundShown (blogPostViewState process ts now entries slugParam) = true ↔
      (slugParam = none ∨ ∃ s, slugParam = some s ∧
        getPostBySlug process ts now entries s = none)) := by
  refine ⟨?_, ?_, ?_⟩
  · rintro ⟨q, hq, hqs⟩
    have hsome : (getPostBySlug process ts now entries slug).isSome = true := by
      unfold getPostBySlug
      rw [List.find?_isSome]
      exact ⟨q, hq, by simp [hqs]⟩
    obtain ⟨p, hp⟩ := Option.isSome_iff_exists.mp hsome
    have hfind : (getAllPosts process ts now entries).find?
        (fun post => post.slug == slug) = some p := hp
    refine ⟨p, hp, by simpa using List.find?_some hfind, ?_⟩
    obtain ⟨i, hi, hget, hbefore⟩ := find?_first _ _ _ hfind
    refine ⟨i, hi, hget, fun j hj hji => ?_⟩
    have := hbefore j hj hji
    simpa using this
  · intro hall
    unfold getPostBySlug
    exact List.find?_eq_none.mpr (fun x hx => by simp [hall x hx])
  · cases slugParam with
    | none => simp [blogPostViewState, postNotFoundShown]
    | some s =>
      unfold blogPostViewState
      cases hl : getPostBySlug process ts now entries s with
      | some p => simp [postNotFoundShown, hl]
      | none => simp [postNotFoundShown, hl]

/-- Claim C9 (implicit): getAllPosts returns the posts sorted by date in
descending, newest-first order: for any two posts in returned order, the
timestamp of the earlier-listed one is at least that of the later-listed one
(so in particular every adjacent pair is ordered). -/
theorem c9_posts_sorted_newest_first (process : List Char → List Char)
    (ts : List Char → Int) (now : List Char)
    (entries : List (List Char × List Char)) :
    List.Pairwise (fun a b => ts b.date ≤ ts a.date)
      (getAllPosts process ts now entries) := by
  unfold getAllPosts getAllPostsBody getAllPostsTry
  have h := @List.sorted_mergeSort BlogPost (dateLe ts)
    (fun a b c hab hbc => by
      simp only [dateLe, decide_eq_true_eq] at hab hbc ⊢
      omega)
    (fun a b => by
      simp only [dateLe, Bool.or_eq_true, decide_eq_true_eq]
      omega)
    (entries.map (buildPost process now))
  exact h.imp (fun hab => by simpa [dateLe] using hab)

/-- Claim C10 (implicit): getAllPosts never rejects: its try body always
produces a value (`Except.ok`), the catch turns any error into the empty
list, and BlogList's `Unable to load blog posts` error state cannot be
reached from getAllPosts's result. -/
theorem c10_get_all_posts_never_throws (process : List Char → List Char)
    (ts : List Char → Int) (now : List Char)
    (entries : List (List Char × List Char)) :
    (∀ e : List Char, getAllPostsTry (Except.error e) = []) ∧
    getAllPostsBody process ts now entries =
      Except.ok (getAllPosts process ts now entries) ∧
    blogListErrorState (getAllPostsBody process ts now entries) = none :=
  ⟨fun _ => rfl, rfl, rfl⟩

theorem char_eq_iff_toNat (c d : Char) : c = d ↔ c.toNat = d.toNat := by
  constructor
  · intro h
    rw [h]
  · intro h
    exact Char.ext (UInt32.toNat.inj h)

theorem collapseRuns_cons (p : Char → Bool) (r : Char) (b : Bool) (c : Char)
    (t : List Char) :
    collapseRuns p r b (c :: t) =
      if p c = true then
        (if b = true then collapseRuns p r true t else r :: collapseRuns p r true t)
      else c :: collapseRuns p r false t := rfl

theorem collapse_app_word (p : Char → Bool) (r : Char) (w s : List Char)
    (hw : ∀ c ∈ w, p c = false) :
    collapseRuns p r false (w ++ s) = w ++ collapseRuns p r false s := by
  induction w with
  | nil => rfl
  | cons c w' ih =>
    have hc : p c = false := hw c (by simp)
    rw [List.cons_append, collapseRuns_cons, hc, if_neg (by decide)]
    rw [ih (fun d hd => hw d (by simp [hd])), List.cons_append]

theorem collapse_true_run (p : Char → Bool) (r : Char) (u s : List Char)
    (hu : ∀ c ∈ u, p c = true) :
    collapseRuns p r true (u ++ s) = collapseRuns p r true s := by
  induction u with
  | nil => rfl
  | cons c u' ih =>
    have hc : p c = true := hu c (by simp)
    rw [List.cons_append, collapseRuns_cons, hc, if_pos rfl, if_pos rfl]
    exact ih (fun d hd => hu d (by simp [hd]))

theorem collapse_true_head (p : Char → Bool) (r : Char) (s : List Char)
    (hs : ∀ c, s.head? = some c → p c = false) :
    collapseRuns p r true s = collapseRuns p r false s := by
  cases s with
  | nil => rfl
  | cons c t =>
    have hc : p c = false := hs c rfl
    rw [collapseRuns_cons p r true c t, collapseRuns_cons p r false c t, hc,
      if_neg (by decide), if_neg (by decide)]

theorem collapse_run_start (p : Char → Bool) (r : Char) (u s : List Char)
    (hne : u ≠ []) (hu : ∀ c ∈ u, p c = true) :
    collapseRuns p r false (u ++ s) = r :: collapseRuns p r true s := by
  cases u with
  | nil => exact absurd rfl hne
  | cons c u' =>
    have hc : p c = true := hu c (by simp)
    rw [List.cons_append, collapseRuns_cons, hc, if_pos rfl, if_neg (by decide)]
    rw [collapse_true_run p r u' s (fun d hd => hu d (by simp [hd]))]

theorem dropWhile_head?_false (p : Char → Bool) (l : List Char) (c : Char)
    (h : (l.dropWhile p).head? = some c) : p c = false := by
  induction l with
  | nil => cases h
  | cons a t ih =>
    rw [List.dropWhile_cons] at h
    by_cases ha : p a = true
    · rw [if_pos ha] at h
      exact ih h
    · rw [if_neg ha] at h
      cases h
      simpa using ha

theorem getLast?_of_suffix (v u : List Char) (hvu : v <:+ u) (c : Char)
    (h : v.getLast? = some c) : u.getLast? = some c := by
  obtain ⟨t, rfl⟩ := hvu
  rw [List.getLast?_append, h]
  rfl

theorem jsTrim_head? (s : List Char) (c : Char)
    (h : (jsTrim s).head? = some c) : isJsWs c = false := by
  unfold jsTrim at h
  rw [List.head?_reverse] at h
  have hsuffix : (s.dropWhile isJsWs).reverse.dropWhile isJsWs <:+
      (s.dropWhile isJsWs).reverse := List.dropWhile_suffix isJsWs
  have h2 := getLast?_of_suffix _ _ hsuffix c h
  rw [List.getLast?_reverse] at h2
  exact dropWhile_head?_false isJsWs s c h2

theorem jsTrim_getLast? (s : List Char) (c : Char)
    (h : (jsTrim s).getLast? = some c) : isJsWs c = false := by
  unfold jsTrim at h
  rw [List.getLast?_reverse] at h
  exact dropWhile_head?_false isJsWs _ c h

theorem jsTrim_mem (s : List Char) (c : Char) (h : c ∈ jsTrim s) : c ∈ s := by
  unfold jsTrim at h
  rw [List.mem_reverse] at h
  have h2 := (List.dropWhile_sublist isJsWs).subset h
  rw [List.mem_reverse] at h2
  exact (List.dropWhile_sublist isJsWs).subset h2

theorem jsTrim_eq_self (s : List Char)
    (hhead : ∀ c, s.head? = some c → isJsWs c = false)
    (hlast : ∀ c, s.getLast? = some c → isJsWs c = false) :
    jsTrim s = s := by
  unfold jsTrim
  have h1 : s.dropWhile isJsWs = s := by
    cases s with
    | nil => rfl
    | cons a t =>
      rw [List.dropWhile_cons, if_neg (by simp [hhead a rfl])]
  rw [h1]
  have h2 : s.reverse.dropWhile isJsWs = s.reverse := by
    cases hr : s.reverse with
    | nil => rfl
    | cons a t =>
      have ha : s.getLast? = some a := by
        rw [← List.head?_reverse, hr]
        rfl
      rw [List.dropWhile_cons, if_neg (by simp [hlast a ha])]
  rw [h2, List.reverse_reverse]

theorem buildWords (s : List Char)
    (hall : ∀ c ∈ s, isAlnumAscii c = true ∨ isJsWs c = true)
    (hhead : ∀ c, s.head? = some c → isJsWs c = false)
    (hlast : ∀ c, s.getLast? = some c → isJsWs c = false) :
    ∃ ws, (∀ w ∈ ws, w ≠ [] ∧ ∀ c ∈ w, isAlnumAscii c = true) ∧
      collapseRuns isJsWs '-' false s = glueSep '-' ws := by
  by_cases hnil : s = []
  · subst hnil
    exact ⟨[], by simp, rfl⟩
  · have hsplit : s.takeWhile (fun c => !isJsWs c) ++ s.dropWhile (fun c => !isJsWs c) = s :=
      List.takeWhile_append_dropWhile _ _
    set w := s.takeWhile (fun c => !isJsWs c) with hw
    set rest := s.dropWhile (fun c => !isJsWs c) with hrest
    have hwchars : ∀ c ∈ w, isJsWs c = false := by
      intro c hc
      have := List.mem_takeWhile_imp hc
      simpa using this
    have hwalnum : ∀ c ∈ w, isAlnumAscii c = true := by
      intro c hc
      have hcs : c ∈ s := by
        rw [← hsplit]
        exact List.mem_append.mpr (Or.inl hc)
      rcases hall c hcs with h | h
      · exact h
      · rw [hwchars c hc] at h
        cases h
    have hwne : w ≠ [] := by
      cases hs : s with
      | nil => exact absurd hs hnil
      | cons a t =>
        have ha : isJsWs a = false := hhead a (by rw [hs]; rfl)
        rw [hw, hs, List.takeWhile_cons, if_pos (by simp [ha])]
        simp
    by_cases hrestnil : rest = []
    · refine ⟨[w], ?_, ?_⟩
      · intro w' hw'
        rw [List.mem_singleton] at hw'
        subst hw'
        exact ⟨hwne, hwalnum⟩
      · conv_lhs => rw [← hsplit, hrestnil, List.append_nil]
        rw [show (w : List Char) = w ++ [] by simp]
        rw [collapse_app_word isJsWs '-' w [] hwchars]
        simp [glueSep]
        rfl
    · have hsplit2 : rest.takeWhile isJsWs ++ rest.dropWhile isJsWs = rest :=
        List.takeWhile_append_dropWhile _ _
      set u := rest.takeWhile isJsWs with hu
      set rest2 := rest.dropWhile isJsWs with hrest2
      have huchars : ∀ c ∈ u, isJsWs c = true := fun c hc => List.mem_takeWhile_imp hc
      have hune : u ≠ [] := by
        cases hr : rest with
        | nil => exact absurd hr hrestnil
        | cons d r' =>
          have hd0 : (s.dropWhile (fun c => !isJsWs c)).head? = some d := by
            rw [← hrest, hr]
            rfl
          have hd : isJsWs d = true := by
            have := dropWhile_head?_false (fun c => !isJsWs c) s d hd0
            simpa using this
          rw [hu, hr, List.takeWhile_cons, if_pos hd]
          simp
      have hrest2head : ∀ c, rest2.head? = some c → isJsWs c = false := by
        intro c hc
        rw [hrest2] at hc
        exact dropWhile_head?_false isJsWs rest c hc
      have hrest2ne : rest2 ≠ [] := by
        intro h2
        have hgl : s.getLast? = u.getLast? := by
          conv_lhs => rw [← hsplit, ← hsplit2, h2, List.append_nil]
          rw [List.getLast?_append]
          cases hug : u.getLast? with
          | none => exact absurd (List.getLast?_eq_none_iff.mp hug) hune
          | some x => rfl
        cases hug : u.getLast? with
        | none => exact absurd (List.getLast?_eq_none_iff.mp hug) hune
        | some x =>
          have hx : x ∈ u := List.mem_of_mem_getLast? hug
          have := hlast x (by rw [hgl]; exact hug)
          rw [huchars x hx] at this
          cases this
      have hrest2chars : ∀ c ∈ rest2, isAlnumAscii c = true ∨ isJsWs c = true := by
        intro c hc
        apply hall
        rw [← hsplit]
        refine List.mem_append.mpr (Or.inr ?_)
        rw [← hsplit2]
        exact List.mem_append.mpr (Or.inr hc)
      have hrest2last : ∀ c, rest2.getLast? = some c → isJsWs c = false := by
        intro c hc
        apply hlast
        have hsuf2 : rest2 <:+ rest := by
          rw [hrest2]
          exact List.dropWhile_suffix isJsWs
        have hsuf1 : rest <:+ s := by
          rw [hrest]
          exact List.dropWhile_suffix _
        exact getLast?_of_suffix _ _ (hsuf2.trans hsuf1) c hc
      have hrest2len : rest2.length < s.length := by
        have h1 : w.length + rest.length = s.length := by
          conv_rhs => rw [← hsplit]
          simp
        have h2 : u.length + rest2.length = rest.length := by
          conv_rhs => rw [← hsplit2]
          simp
        have h3 : 1 ≤ w.length := by
          cases hwe : w with
          | nil => exact absurd hwe hwne
          | cons _ _ => simp
        omega
      obtain ⟨ws', good', heq'⟩ := buildWords rest2 hrest2chars hrest2head hrest2last
      have hws'ne : ws' ≠ [] := by
        intro hws'
        rw [hws'] at heq'
        cases hr2 : rest2 with
        | nil => exact absurd hr2 hrest2ne
        | cons e r2' =>
          have he : isJsWs e = false := hrest2head e (by rw [hr2]; rfl)
          rw [hr2, collapseRuns_cons, he, if_neg (by decide)] at heq'
          cases heq'
      refine ⟨w :: ws', ?_, ?_⟩
      · intro w' hw'
        rcases List.mem_cons.mp hw' with h | h
        · subst h
          exact ⟨hwne, hwalnum⟩
        · exact good' w' h
      · conv_lhs => rw [← hsplit, ← hsplit2]
        rw [collapse_app_word isJsWs '-' w (u ++ rest2) hwchars]
        rw [collapse_run_start isJsWs '-' u rest2 hune huchars]
        rw [collapse_true_head isJsWs '-' rest2 hrest2head]
        rw [heq']
        cases hws' : ws' with
        | nil => exact absurd hws' hws'ne
        | cons x xs => rfl
termination_by s.length
decreasing_by
  exact hrest2len

theorem toLower_lower_alnum (c : Char) (h : isAlnumAscii c = true) :
    isLowerAlnum (Char.toLower c) = true := by
  have ht := toNat_toLower c
  simp only [isAlnumAscii, decide_eq_true_eq] at h
  simp only [isLowerAlnum, decide_eq_true_eq]
  by_cases hc : 65 ≤ c.toNat ∧ c.toNat ≤ 90
  · rw [if_pos hc] at ht
    omega
  · rw [if_neg hc] at ht
    omega

theorem lower_alnum_alnum (c : Char) (h : isLowerAlnum c = true) :
    isAlnumAscii c = true := by
  simp only [isLowerAlnum, decide_eq_true_eq] at h
  simp only [isAlnumAscii, decide_eq_true_eq]
  omega

theorem lower_alnum_not_ws (c : Char) (h : isLowerAlnum c = true) :
    isJsWs c = false := by
  simp only [isLowerAlnum, decide_eq_true_eq] at h
  simp only [isJsWs, decide_eq_false_iff_not]
  omega

theorem toLower_id_of_lower (c : Char) (h : isLowerAlnum c = true) :
    Char.toLower c = c := by
  rw [char_eq_iff_toNat, toNat_toLower]
  simp only [isLowerAlnum, decide_eq_true_eq] at h
  rw [if_neg (by omega)]

theorem glueSep_cons (sep : Char) (w x : List Char) (xs : List (List Char)) :
    glueSep sep (w :: x :: xs) = w ++ sep :: glueSep sep (x :: xs) := rfl

theorem glueSep_mem (sep : Char) (ws : List (List Char)) (c : Char)
    (hc : c ∈ glueSep sep ws) : c = sep ∨ ∃ w ∈ ws, c ∈ w := by
  induction ws with
  | nil => cases hc
  | cons w rest ih =>
    cases rest with
    | nil => exact Or.inr ⟨w, by simp, hc⟩
    | cons x xs =>
      rw [glueSep_cons] at hc
      rcases List.mem_append.mp hc with h | h
      · exact Or.inr ⟨w, by simp, h⟩
      · rcases List.mem_cons.mp h with h2 | h2
        · exact Or.inl h2
        · rcases ih h2 with h3 | ⟨w', hw', hcw'⟩
          · exact Or.inl h3
          · exact Or.inr ⟨w', by simp [hw'], hcw'⟩

theorem glueSep_ne_nil (sep : Char) (x : List Char) (xs : List (List Char))
    (hx : x ≠ []) : glueSep sep (x :: xs) ≠ [] := by
  cases x with
  | nil => exact absurd rfl hx
  | cons a t =>
    cases xs with
    | nil => simp [glueSep]
    | cons z zs =>
      rw [glueSep_cons]
      simp

theorem glueSep_head? (sep : Char) (ws : List (List Char))
    (hne : ∀ w ∈ ws, w ≠ []) (c : Char)
    (hc : (glueSep sep ws).head? = some c) : ∃ w ∈ ws, c ∈ w := by
  cases ws with
  | nil => cases hc
  | cons w rest =>
    have hw : w ≠ [] := hne w (by simp)
    cases rest with
    | nil =>
      refine ⟨w, by simp, ?_⟩
      cases w with
      | nil => exact absurd rfl hw
      | cons a t =>
        cases hc
        simp
    | cons x xs =>
      rw [glueSep_cons, List.head?_append] at hc
      cases w with
      | nil => exact absurd rfl hw
      | cons a t =>
        simp only [List.head?_cons] at hc
        have hac : a = c := by
          injection (show some a = some c from hc)
        exact ⟨a :: t, by simp, by simp [hac]⟩

theorem glueSep_getLast? (sep : Char) :
    ∀ (ws : List (List Char)), (∀ w ∈ ws, w ≠ []) → ∀ c,
      (glueSep sep ws).getLast? = some c → ∃ w ∈ ws, c ∈ w := by
  intro ws
  induction ws with
  | nil =>
    intro _ c hc
    cases hc
  | cons w rest ih =>
    intro hne c hc
    cases rest with
    | nil => exact ⟨w, by simp, List.mem_of_mem_getLast? hc⟩
    | cons x xs =>
      rw [glueSep_cons, List.getLast?_append] at hc
      have hxne : x ≠ [] := hne x (by simp)
      have hgne : glueSep sep (x :: xs) ≠ [] := glueSep_ne_nil sep x xs hxne
      have htail : (glueSep sep (x :: xs)).getLast? = some c := by
        cases hl : (glueSep sep (x :: xs)).getLast? with
        | none => exact absurd (List.getLast?_eq_none_iff.mp hl) hgne
        | some z =>
          have h1 : (sep :: glueSep sep (x :: xs)).getLast? = some z := by
            rw [show (sep :: glueSep sep (x :: xs)) = [sep] ++ glueSep sep (x :: xs)
              from rfl, List.getLast?_append, hl]
            rfl
          rw [h1] at hc
          have hzc : z = c := by
            injection (show some z = some c from hc)
          rw [hzc]
      obtain ⟨w', hw', hcw'⟩ := ih (fun v hv => hne v (by simp [hv])) c htail
      exact ⟨w', by simp [hw'], hcw'⟩

theorem map_toLower_glueSep (ws : List (List Char)) :
    (glueSep '-' ws).map Char.toLower =
      glueSep '-' (ws.map (fun w => w.map Char.toLower)) := by
  induction ws with
  | nil => rfl
  | cons w rest ih =>
    cases rest with
    | nil => rfl
    | cons x xs =>
      rw [glueSep_cons, List.map_append, List.map_cons,
        show Char.toLower '-' = '-' from by decide, ih]
      rfl

theorem slugifyStep_of_lower (c : Char) (h : isLowerAlnum c = true) :
    slugifyStep c = [c] := by
  have hmap : slugifyCharMap c = none := by
    unfold slugifyCharMap
    rw [if_neg, if_neg, if_neg, if_neg, if_neg, if_neg]
    all_goals
      intro he
      rw [he] at h
      exact absurd h (by decide)
  have hne : ¬ (([c] : List Char) = ['-']) := by
    intro he
    have hcd : c = '-' := by injection he
    rw [hcd] at h
    exact absurd h (by decide)
  have hkeep : slugifyKeep c = true := by
    simp only [slugifyKeep, isWordChar, isJsWs, Bool.or_eq_true, decide_eq_true_eq]
    simp only [isLowerAlnum, decide_eq_true_eq] at h
    omega
  unfold slugifyStep
  rw [hmap]
  show (if ([c] : List Char) = ['-'] then [' '] else [c]).filter slugifyKeep = [c]
  rw [if_neg hne]
  simp [hkeep]

theorem slugifyStep_hyphen : slugifyStep '-' = [' '] := by decide

theorem flatten_step_word (w : List Char)
    (h : ∀ c ∈ w, isLowerAlnum c = true) :
    (w.map slugifyStep).flatten = w := by
  induction w with
  | nil => rfl
  | cons c t ih =>
    rw [List.map_cons, List.flatten_cons, slugifyStep_of_lower c (h c (by simp)),
      ih (fun d hd => h d (by simp [hd]))]
    rfl

theorem flatten_step_glue (ws : List (List Char))
    (good : ∀ w ∈ ws, w ≠ [] ∧ ∀ c ∈ w, isLowerAlnum c = true) :
    ((glueSep '-' ws).map slugifyStep).flatten = glueSep ' ' ws := by
  induction ws with
  | nil => rfl
  | cons w rest ih =>
    cases rest with
    | nil => exact flatten_step_word w (good w (by simp)).2
    | cons x xs =>
      rw [glueSep_cons, List.map_append, List.flatten_append, List.map_cons,
        List.flatten_cons, slugifyStep_hyphen,
        flatten_step_word w (good w (by simp)).2,
        ih (fun v hv => good v (by simp [hv]))]
      rfl

theorem collapse_glue (ws : List (List Char))
    (good : ∀ w ∈ ws, w ≠ [] ∧ ∀ c ∈ w, isLowerAlnum c = true) :
    collapseRuns isJsWs '-' false (glueSep ' ' ws) = glueSep '-' ws := by
  induction ws with
  | nil => rfl
  | cons w rest ih =>
    have hwchars : ∀ c ∈ w, isJsWs c = false :=
      fun c hc => lower_alnum_not_ws c ((good w (by simp)).2 c hc)
    cases rest with
    | nil =>
      show collapseRuns isJsWs '-' false w = w
      conv_lhs => rw [show (w : List Char) = w ++ [] from (List.append_nil w).symm]
      rw [collapse_app_word isJsWs '-' w [] hwchars,
        show collapseRuns isJsWs '-' false [] = [] from rfl, List.append_nil]
    | cons x xs =>
      rw [show glueSep ' ' (w :: x :: xs) = w ++ ' ' :: glueSep ' ' (x :: xs) from rfl]
      rw [collapse_app_word isJsWs '-' w _ hwchars]
      rw [show (' ' :: glueSep ' ' (x :: xs)) = [' '] ++ glueSep ' ' (x :: xs) from rfl]
      rw [collapse_run_start isJsWs '-' [' '] _ (by simp)
        (by
          intro c hc
          rw [List.mem_singleton] at hc
          rw [hc]
          decide)]
      rw [collapse_true_head isJsWs '-' _ (by
        intro c hc
        obtain ⟨v, hv, hcv⟩ :=
          glueSep_head? ' ' (x :: xs) (fun v hv => (good v (by simp [hv])).1) c hc
        exact lower_alnum_not_ws c ((good v (by simp [hv])).2 c hcv))]
      rw [ih (fun v hv => good v (by simp [hv]))]
      rw [glueSep_cons]

theorem slugify_fixed (ws : List (List Char))
    (good : ∀ w ∈ ws, w ≠ [] ∧ ∀ c ∈ w, isLowerAlnum c = true) :
    slugify (glueSep '-' ws) = glueSep '-' ws := by
  unfold slugify
  rw [flatten_step_glue ws good]
  have hfil : (glueSep ' ' ws).filter (fun c => isAlnumAscii c || isJsWs c) =
      glueSep ' ' ws := by
    rw [List.filter_eq_self]
    intro c hc
    rcases glueSep_mem ' ' ws c hc with h | ⟨w, hw, hcw⟩
    · rw [h]
      decide
    · simp [lower_alnum_alnum c ((good w hw).2 c hcw)]
  rw [hfil]
  have htrim : jsTrim (glueSep ' ' ws) = glueSep ' ' ws := by
    apply jsTrim_eq_self
    · intro c hc
      obtain ⟨w, hw, hcw⟩ :=
        glueSep_head? ' ' ws (fun v hv => (good v hv).1) c hc
      exact lower_alnum_not_ws c ((good w hw).2 c hcw)
    · intro c hc
      obtain ⟨w, hw, hcw⟩ :=
        glueSep_getLast? ' ' ws (fun v hv => (good v hv).1) c hc
      exact lower_alnum_not_ws c ((good w hw).2 c hcw)
  rw [htrim, collapse_glue ws good]
  have hid : ∀ c ∈ glueSep '-' ws, Char.toLower c = c := by
    intro c hc
    rcases glueSep_mem '-' ws c hc with h | ⟨w, hw, hcw⟩
    · rw [h]
      decide
    · exact toLower_id_of_lower c ((good w hw).2 c hcw)
  calc (glueSep '-' ws).map Char.toLower = (glueSep '-' ws).map id :=
        List.map_congr_left hid
    _ = glueSep '-' ws := List.map_id _

theorem slugify_to_words (t : List Char) :
    ∃ ws, (∀ w ∈ ws, w ≠ [] ∧ ∀ c ∈ w, isLowerAlnum c = true) ∧
      slugify t = glueSep '-' ws := by
  unfold slugify
  have hall : ∀ c ∈ jsTrim (((t.map slugifyStep).flatten).filter
      (fun c => isAlnumAscii c || isJsWs c)),
      isAlnumAscii c = true ∨ isJsWs c = true := by
    intro c hc
    have h2 := jsTrim_mem _ c hc
    have h3 := List.of_mem_filter h2
    simpa using h3
  obtain ⟨ws, good, heq⟩ := buildWords _ hall (jsTrim_head? _) (jsTrim_getLast? _)
  refine ⟨ws.map (fun w => w.map Char.toLower), ?_, ?_⟩
  · intro w' hw'
    obtain ⟨w, hw, rfl⟩ := List.mem_map.mp hw'
    obtain ⟨hne, halnum⟩ := good w hw
    refine ⟨by simpa using hne, ?_⟩
    intro c hc
    obtain ⟨d, hd, rfl⟩ := List.mem_map.mp hc
    exact toLower_lower_alnum d (halnum d hd)
  · rw [heq, map_toLower_glueSep]

/-- Claim C5: createSlug is deterministic — it is a pure function of its
input, two calls on the same title give the same slug — and idempotent:
slugifying an already produced slug returns it unchanged, because every slug
is a (possibly empty) sequence of nonempty lowercase-alphanumeric words
joined by single hyphens, a shape the pipeline maps to itself. -/
theorem c5_create_slug_deterministic_idempotent (t : List Char) :
    createSlug t = createSlug t ∧ createSlug (createSlug t) = createSlug t := by
  refine ⟨rfl, ?_⟩
  obtain ⟨ws, good, heq⟩ := slugify_to_words t
  unfold createSlug
  rw [heq]
  exact slugify_fixed ws good
